import Mathlib

/-!
Verification of the external key-value file sorter
(`src/sort_bigdatafile/sort_bigdatafile.cpp`).

The program is embedded shallowly:

* a file is a list of lines, each line a `List Char` (what `std::getline`
  yields: the line's bytes without the terminating newline);
* `uint64_t` keys are `Nat` values kept below `2 ^ 64` by the parser, which
  models `std::from_chars` including its overflow rejection;
* `std::stable_sort` with the strict comparator `a.key < b.key` is modelled by
  `List.mergeSort` with the non-strict `a.key ≤ b.key`; both are stable sorts
  by key, which is exactly the behaviour `std::stable_sort` guarantees;
* the two unbounded loops of the program (the batch loop of
  `FileSorter::sort` and the merge loop of `FileSorter::mergeTempFiles`) are
  written with an explicit fuel argument; the wrappers `runsOf` and `mergeAll`
  supply fuel that provably exceeds the number of iterations the loop can
  make, so the fuel case is never reached on the wrapped entry points;
* the `originalIndex` field of a merge head is never read from a run file
  (`parseKeyValue` does not assign it and the run files do not contain it, see
  the theorems below); in the C++ program it is an uninitialised
  `size_t`.  The model makes that memory content explicit as a `junk`
  parameter giving the initial `originalIndex` of each `FileEntry`;
* I/O failures of `FileSorter::sort` are modelled by an `Env` oracle saying
  which `open`/`create` calls succeed; the pure pipeline (`runSort`) is the
  run in which every call succeeds.
-/

namespace BigSort

/-- In-memory record: mirrors `struct KeyValuePair` (source lines 13-17):
`uint64_t key`, `std::string value`, `size_t originalIndex`. -/
structure KeyValuePair where
  key : Nat
  value : List Char
  originalIndex : Nat
deriving Repr, DecidableEq

/-- `FileSorter::BATCH_SIZE` (source line 51). -/
def BATCH_SIZE : Nat := 1000000

/-- `2 ^ 64`, one past the largest `uint64_t` value. -/
def U64 : Nat := 2 ^ 64

/-- Numeric value of a most-significant-first list of digit characters, the
way `std::from_chars` accumulates the digits it consumes. -/
def decVal (ds : List Char) : Nat := ds.foldl (fun a c => a * 10 + (c.toNat - 48)) 0

/-- The maximal run of decimal digit characters at the front of `s`: the part
of the key portion that `std::from_chars` consumes. -/
def leadDigits (s : List Char) : List Char := s.takeWhile Char.isDigit

/-- Models `std::from_chars(start, start + colonPos, pair.key)` for
`uint64_t` followed by the source's `result.ec != std::errc()` test (source
lines 27-32): the call consumes the maximal leading digit run; it reports
`invalid_argument` when that run is empty and `result_out_of_range` when the
run's value does not fit in `uint64_t`; the source treats both as failure.
Characters after the digit run are NOT inspected (the source never compares
`result.ptr` with `end`). -/
def fromCharsU64 (s : List Char) : Option Nat :=
  let ds := leadDigits s
  if ds.isEmpty then none
  else if decVal ds < U64 then some (decVal ds) else none

/-- `line.find(':')` plus the two `substr` extractions of source lines 21-39:
splits the line at its FIRST colon into (key portion, value portion), or
`none` when the line has no colon. -/
def splitAtColon : List Char → Option (List Char × List Char)
  | [] => none
  | c :: cs =>
    if c = ':' then some ([], cs)
    else
      match splitAtColon cs with
      | none => none
      | some (k, v) => some (c :: k, v)

/-- `parseKeyValue` (source lines 20-42).  The C++ function takes the record
by reference and on success assigns only `pair.key` and `pair.value`;
`pair.originalIndex` is left as the caller set it (it is NOT read from the
line).  On failure the record is returned unchanged by `from_chars`
semantics; the source then discards it. -/
def parseKeyValue (line : List Char) (pair : KeyValuePair) : Option KeyValuePair :=
  match splitAtColon line with
  | none => none
  | some (k, v) =>
    match fromCharsU64 k with
    | none => none
    | some n => some { pair with key := n, value := v }

/-- Least-significant-first decimal digits of `n`; the fuel argument (any
bound on the number of divisions, `n` itself suffices) keeps the recursion
structural so that concrete runs reduce inside the kernel. -/
def natToDecAux : Nat → Nat → List Char
  | 0, _ => []
  | fuel + 1, n => if n = 0 then [] else Char.ofNat (48 + n % 10) :: natToDecAux fuel (n / 10)

/-- Decimal rendering of a `Nat`, as `operator<<` prints a `uint64_t`:
most-significant digit first, no sign, no leading zeros, `0 ↦ "0"`. -/
def natToDec (n : Nat) : List Char :=
  if n = 0 then ['0'] else (natToDecAux n n).reverse

/-- The line written for a record by `output << pair.key << ":" << pair.value`
(source lines 96-98 and 194): the newline terminator is implicit in the
line-list file model. -/
def formatPair (p : KeyValuePair) : List Char := natToDec p.key ++ ':' :: p.value

/-- The (key, value) content of a record; `originalIndex` never reaches the
output file, so output claims speak about this projection. -/
def kv (p : KeyValuePair) : Nat × List Char := (p.key, p.value)

/-- Key/value result of parsing a line.  `parseKeyValue` computes key and
value from the line alone, so the seed record is irrelevant here. -/
def parseKV (line : List Char) : Option (Nat × List Char) :=
  (parseKeyValue line { key := 0, value := [], originalIndex := 0 }).map kv

/-- Parsing the line found at global line number `il.1`, the way
`FileSorter::sortBatch` seeds the record before calling `parseKeyValue`
(source lines 67-70). -/
def parseAt (il : Nat × List Char) : Option KeyValuePair :=
  parseKeyValue il.2 { key := 0, value := [], originalIndex := il.1 }

/-- The read loop of `FileSorter::sortBatch` (source lines 64-76): consume
lines while the batch holds fewer than `bs` records; seed each record's
`originalIndex` with the global line counter, which advances for EVERY line
read, malformed ones included (`lineIndex++` is unconditional); parsed
records are appended, malformed lines only warn.  Returns the batch, the
unconsumed lines and the advanced line counter. -/
def readBatch (bs : Nat) :
    List (List Char) → Nat → List KeyValuePair →
      List KeyValuePair × List (List Char) × Nat
  | [], idx, batch => (batch, [], idx)
  | l :: ls, idx, batch =>
    if batch.length < bs then
      match parseKeyValue l { key := 0, value := [], originalIndex := idx } with
      | some p => readBatch bs ls (idx + 1) (batch ++ [p])
      | none => readBatch bs ls (idx + 1) batch
    else (batch, l :: ls, idx)

/-- Insert `p` after every already-placed record whose key is `≤ p.key`:
the insertion step of a stable insertion sort by key. -/
def insertByKey (p : KeyValuePair) : List KeyValuePair → List KeyValuePair
  | [] => [p]
  | q :: qs => if q.key ≤ p.key then q :: insertByKey p qs else p :: q :: qs

/-- The in-memory sort of one batch (source line 83): `std::stable_sort`
with the strict comparator `a.key < b.key`.  A stable sort's output is the
unique permutation that is non-decreasing in key and keeps equal-key
records in their input order, so any stable sort by key computes the same
list; it is modelled here as a stable insertion sort (each record is placed
after all earlier records with a key `≤` its own), which is structurally
recursive and therefore runs inside the kernel on concrete batches. -/
def sortRun (batch : List KeyValuePair) : List KeyValuePair :=
  batch.foldl (fun acc p => insertByKey p acc) []

/-- The batch loop of `FileSorter::sort` (source line 226) under the pure
(all I/O succeeding) run: repeatedly `sortBatch`, collecting each sorted
batch as the content of the next run file, until a batch comes back empty.
Fuel: each successful batch consumes at least one line, so
`lines.length + 1` units never run out (see `makeRuns_spec`). -/
def makeRuns (bs : Nat) : Nat → List (List Char) → Nat → List (List KeyValuePair)
  | 0, _, _ => []
  | fuel + 1, lines, idx =>
    if (readBatch bs lines idx []).1.isEmpty then []
    else
      sortRun (readBatch bs lines idx []).1
        :: makeRuns bs fuel (readBatch bs lines idx []).2.1 (readBatch bs lines idx []).2.2

/-- The run files produced for an input file: run `i` holds the lines
`(runsOf bs lines)[i].map formatPair`. -/
def runsOf (bs : Nat) (lines : List (List Char)) : List (List KeyValuePair) :=
  makeRuns bs (lines.length + 1) lines 0

/-- Merge-time state of one run file: mirrors `struct FileEntry` (source
lines 129-150) — the unread lines of the file, the `currentPair` head slot
and the `hasNext` flag. -/
structure MergeEntry where
  lines : List (List Char)
  pair : KeyValuePair
  hasNext : Bool
deriving Repr, DecidableEq

/-- `FileEntry::readNext` (source lines 138-149): read lines, skipping ones
`parseKeyValue` rejects, until one parses (head present) or the file is
exhausted (head absent).  The record is the in-out `currentPair`: on a parse
failure, and in the exhausted case, it keeps its previous field values — in
particular `originalIndex` is NEVER assigned here or in `parseKeyValue`. -/
def readNext : List (List Char) → KeyValuePair → List (List Char) × KeyValuePair × Bool
  | [], p => ([], p, false)
  | l :: ls, p =>
    match parseKeyValue l p with
    | some q => (ls, q, true)
    | none => readNext ls p

/-- Construction of a `FileEntry` (source line 134): `currentPair` is
default-initialised — its `std::string` value is empty while `key` and
`originalIndex` are uninitialised memory — and `readNext` is called once.
`junk` is the indeterminate initial `originalIndex`; the indeterminate
initial key is taken as `0`, which is sound because the key is only ever
read after a successful parse overwrote it (heads are consulted only when
`hasNext` is set). -/
def initEntry (junk : Nat) (content : List (List Char)) : MergeEntry :=
  { lines := (readNext content { key := 0, value := [], originalIndex := junk }).1,
    pair := (readNext content { key := 0, value := [], originalIndex := junk }).2.1,
    hasNext := (readNext content { key := 0, value := [], originalIndex := junk }).2.2 }

/-- Advancing the selected run (source line 197). -/
def advanceEntry (e : MergeEntry) : MergeEntry :=
  { lines := (readNext e.lines e.pair).1,
    pair := (readNext e.lines e.pair).2.1,
    hasNext := (readNext e.lines e.pair).2.2 }

/-- The strict improvement test of the selection loop (source lines
180-182): smaller key, or equal key and smaller `originalIndex`. -/
def better (p q : KeyValuePair) : Bool :=
  p.key < q.key || (p.key == q.key && p.originalIndex < q.originalIndex)

/-- The selection scan of the merge loop (source lines 174-187): walk the
entries in file order carrying the best `(index, head)` so far; an entry
without a head is skipped; the first entry attaining the minimum of
`(key, originalIndex)` wins because only a strict `better` replaces. -/
def scanMinAux :
    List MergeEntry → Nat → Option (Nat × KeyValuePair) → Option (Nat × KeyValuePair)
  | [], _, best => best
  | e :: es, i, best =>
    if e.hasNext then
      match best with
      | none => scanMinAux es (i + 1) (some (i, e.pair))
      | some (j, q) =>
        if better e.pair q then scanMinAux es (i + 1) (some (i, e.pair))
        else scanMinAux es (i + 1) (some (j, q))
    else scanMinAux es (i + 1) best

/-- Replace entry `j` by its advanced state (source line 197). -/
def advanceAt (entries : List MergeEntry) (j : Nat) : List MergeEntry :=
  match entries[j]? with
  | none => entries
  | some e => entries.set j (advanceEntry e)

/-- The k-way merge loop (source lines 172-198): while some run still has a
head, emit the selected minimal head and advance that run.  Fuel: every
iteration strictly decreases `totalMeasure`, so the wrapper's fuel is never
exhausted (see `mergeLoop` lemmas below). -/
def mergeLoop : Nat → List MergeEntry → List KeyValuePair
  | 0, _ => []
  | fuel + 1, entries =>
    match scanMinAux entries 0 none with
    | none => []
    | some (j, p) => p :: mergeLoop fuel (advanceAt entries j)

/-- Loop variant of one entry: unread lines plus one for a pending head. -/
def entryMeasure (e : MergeEntry) : Nat := e.lines.length + (if e.hasNext then 1 else 0)

/-- Loop variant of the whole merge. -/
def totalMeasure (entries : List MergeEntry) : Nat := (entries.map entryMeasure).sum

/-- The k-way merge with enough fuel for its loop. -/
def mergeAll (entries : List MergeEntry) : List KeyValuePair :=
  mergeLoop (totalMeasure entries + 1) entries

/-- The vector of `FileEntry`s built at source lines 153-162: entry `i` reads
the file holding run `i`'s formatted lines; its uninitialised `originalIndex`
memory content is `junk i`. -/
def mergeEntries (junk : Nat → Nat) (runs : List (List KeyValuePair)) : List MergeEntry :=
  runs.enum.map fun ir => initEntry (junk ir.1) (ir.2.map formatPair)

/-- The record sequence the whole program writes to the output file when
every I/O call succeeds, following `FileSorter::sort` (source lines
215-245): no run — empty output; one run — the run file is copied verbatim,
so the output records are that run; otherwise the k-way merge of all run
files. -/
def runSortRecords (bs : Nat) (junk : Nat → Nat) (lines : List (List Char)) :
    List KeyValuePair :=
  match runsOf bs lines with
  | [] => []
  | [r] => r
  | runs => mergeAll (mergeEntries junk runs)

/-- The output file (as lines): every path of the program writes each emitted
record with `<key>:<value>` (the single-run fast path copies the run file,
whose lines have exactly that shape). -/
def runSort (bs : Nat) (junk : Nat → Nat) (lines : List (List Char)) : List (List Char) :=
  (runSortRecords bs junk lines).map formatPair

/-- Convenience: a line literal. -/
def strL (s : String) : List Char := s.data

/-- The (key, value) stream still ahead in a merge entry: its pending head,
followed by the key/value content of the lines it has not read yet. -/
def kvStream (e : MergeEntry) : List (Nat × List Char) :=
  (if e.hasNext then [kv e.pair] else []) ++ e.lines.filterMap parseKV

/-- Structural invariant of a merge entry: the head flag is only clear once
the file is exhausted. -/
def entryWF (e : MergeEntry) : Prop := e.hasNext = false → e.lines = []

/-- A merge entry whose pending stream is (non-strictly) sorted by key. -/
def entrySorted (e : MergeEntry) : Prop :=
  (kvStream e).Pairwise (fun a b => a.1 ≤ b.1)

/-- Oracle for the I/O calls of one `FileSorter::sort` invocation, plus the
indeterminate memory read by the merge: which temp-file creations succeed
(`std::ofstream` at source line 90), which temp-file opens succeed (source
lines 113 and 158), whether the input and the final output can be opened
(source lines 216, 114, 165 and 234), and the uninitialised `originalIndex`
of each `FileEntry`. -/
structure Env where
  inputOpenOk : Bool
  tempCreateOk : Nat → Bool
  tempOpenOk : Nat → Bool
  outputOk : Bool
  junk : Nat → Nat

/-- Observable outcome of one invocation: the value `FileSorter::sort`
returns (`main` exits 0 exactly when it is `true`), the content of the
output file when the run presents one as complete, and which temp-file
indices were created and later deleted. -/
structure SortOutcome where
  ok : Bool
  output : Option (List (List Char))
  tempsCreated : List Nat
  tempsDeleted : List Nat
deriving Repr, DecidableEq

/-- The batch loop of `FileSorter::sort` (source line 226) under the `env`
oracle.  `FileSorter::sortBatch` returns `false` BOTH when the batch is
empty (input exhausted, source line 79) AND when its temp file cannot be
created (source line 93); the loop cannot tell the two apart and simply
stops, keeping the temp files made so far. -/
def batchPhase (bs : Nat) (env : Env) :
    Nat → List (List Char) → Nat → Nat → List (List KeyValuePair)
  | 0, _, _, _ => []
  | fuel + 1, lines, idx, i =>
    if (readBatch bs lines idx []).1.isEmpty then []
    else if env.tempCreateOk i then
      sortRun (readBatch bs lines idx []).1
        :: batchPhase bs env fuel (readBatch bs lines idx []).2.1
            (readBatch bs lines idx []).2.2 (i + 1)
    else []

/-- `FileSorter::sort` plus `mergeTempFiles` (source lines 105-245) under
the `env` oracle.  On every failure branch the function returns `false`
(so `main` exits 1) and no output is presented as complete; `output := none`
records that.  Note which branches delete temp files: only the two success
branches of `mergeTempFiles` do (source lines 124 and 202-206); its failure
returns at lines 118, 160 and 168 delete nothing. -/
def sortFile (bs : Nat) (env : Env) (lines : List (List Char)) : SortOutcome :=
  if env.inputOpenOk = false then ⟨false, none, [], []⟩
  else
    match batchPhase bs env (lines.length + 1) lines 0 0 with
    | [] =>
      if env.outputOk then ⟨true, some [], [], []⟩ else ⟨false, none, [], []⟩
    | [r] =>
      if env.tempOpenOk 0 && env.outputOk then ⟨true, some (r.map formatPair), [0], [0]⟩
      else ⟨false, none, [0], []⟩
    | runs =>
      if (List.range runs.length).all env.tempOpenOk then
        if env.outputOk then
          ⟨true, some ((mergeAll (mergeEntries env.junk runs)).map formatPair),
            List.range runs.length, List.range runs.length⟩
        else ⟨false, none, List.range runs.length, []⟩
      else ⟨false, none, List.range runs.length, []⟩

end BigSort

/-! ## Lemmas about the record codec -/

namespace BigSort

theorem digitChar_toNat {d : Nat} (hd : d < 10) : (Char.ofNat (48 + d)).toNat = 48 + d := by
  interval_cases d <;> decide

theorem digitChar_isDigit {d : Nat} (hd : d < 10) : (Char.ofNat (48 + d)).isDigit = true := by
  interval_cases d <;> decide

theorem isDigit_ne_colon {c : Char} (h : c.isDigit = true) : c ≠ ':' := by
  rintro rfl
  simp at h

theorem natToDecAux_eq (fuel : Nat) :
    ∀ n, n ≤ fuel →
      natToDecAux fuel n = (Nat.digits 10 n).map fun d => Char.ofNat (48 + d) := by
  induction fuel with
  | zero =>
    intro n hn
    have : n = 0 := by omega
    subst this
    simp [natToDecAux]
  | succ fuel ih =>
    intro n hn
    by_cases h0 : n = 0
    · subst h0
      simp [natToDecAux]
    · rw [natToDecAux, if_neg h0,
        Nat.digits_def' (by norm_num : (1 : ℕ) < 10) (Nat.pos_of_ne_zero h0),
        List.map_cons]
      have hdiv : n / 10 < n := Nat.div_lt_self (Nat.pos_of_ne_zero h0) (by norm_num)
      rw [ih (n / 10) (by omega)]

/-- Bridge to the `Nat.digits` formulation, on which Mathlib has lemmas. -/
theorem natToDec_eq (n : Nat) :
    natToDec n
      = if n = 0 then ['0']
        else (Nat.digits 10 n).reverse.map fun d => Char.ofNat (48 + d) := by
  unfold natToDec
  by_cases h0 : n = 0
  · simp [h0]
  · rw [if_neg h0, if_neg h0, natToDecAux_eq n n le_rfl, List.map_reverse]

theorem natToDec_digits {n : Nat} : ∀ c ∈ natToDec n, c.isDigit = true := by
  intro c hc
  rw [natToDec_eq] at hc
  split at hc
  · simp at hc
    subst hc
    decide
  · simp only [List.mem_map, List.mem_reverse] at hc
    obtain ⟨d, hd, rfl⟩ := hc
    exact digitChar_isDigit (Nat.digits_lt_base (by norm_num) hd)

theorem natToDec_ne_nil (n : Nat) : natToDec n ≠ [] := by
  rw [natToDec_eq]
  split
  · simp
  · simp only [ne_eq, List.map_eq_nil_iff, List.reverse_eq_nil_iff]
    exact Nat.digits_ne_nil_iff_ne_zero.mpr (by assumption)

theorem foldl_digits_map (L : List Nat) (a : Nat) (h : ∀ d ∈ L, d < 10) :
    (L.map fun d => Char.ofNat (48 + d)).foldl (fun a c => a * 10 + (c.toNat - 48)) a
      = a * 10 ^ L.length + Nat.ofDigits 10 L.reverse := by
  induction L generalizing a with
  | nil => simp
  | cons d T ih =>
    simp only [List.map_cons, List.foldl_cons]
    rw [digitChar_toNat (h d (by simp))]
    rw [ih _ fun x hx => h x (List.mem_cons_of_mem _ hx)]
    rw [List.reverse_cons, Nat.ofDigits_append]
    simp only [List.length_cons, List.length_reverse, Nat.ofDigits_singleton]
    have : 48 + d - 48 = d := by omega
    rw [this]
    ring

theorem decVal_natToDec (n : Nat) : decVal (natToDec n) = n := by
  rw [natToDec_eq]
  unfold decVal
  split
  · subst n
    decide
  · rw [foldl_digits_map _ _ fun d hd =>
      Nat.digits_lt_base (by norm_num) (List.mem_reverse.mp hd)]
    simp [Nat.ofDigits_digits]

theorem leadDigits_all {l : List Char} (h : ∀ c ∈ l, c.isDigit = true) :
    leadDigits l = l :=
  List.takeWhile_eq_self_iff.mpr h

theorem fromCharsU64_natToDec {n : Nat} (h : n < U64) :
    fromCharsU64 (natToDec n) = some n := by
  unfold fromCharsU64
  rw [leadDigits_all natToDec_digits]
  simp only [List.isEmpty_iff]
  rw [if_neg (natToDec_ne_nil n), decVal_natToDec, if_pos h]

theorem splitAtColon_format (a v : List Char) (ha : ∀ c ∈ a, c ≠ ':') :
    splitAtColon (a ++ ':' :: v) = some (a, v) := by
  induction a with
  | nil => simp [splitAtColon]
  | cons c cs ih =>
    have hc : ¬ c = ':' := ha c (by simp)
    simp only [List.cons_append, splitAtColon, if_neg hc, List.append_eq,
      ih fun x hx => ha x (List.mem_cons_of_mem _ hx)]

/-- Round trip of the codec on key and value: re-parsing a formatted record
recovers its key and value; the `originalIndex` of the result is whatever
the caller's in-out record held, since the line does not carry it. -/
theorem parseKeyValue_formatPair (q p : KeyValuePair) (h : q.key < U64) :
    parseKeyValue (formatPair q) p
      = some { key := q.key, value := q.value, originalIndex := p.originalIndex } := by
  unfold parseKeyValue formatPair
  rw [splitAtColon_format _ _ fun c hc => isDigit_ne_colon (natToDec_digits c hc)]
  simp [fromCharsU64_natToDec h]

/-- What `parseKeyValue` writes into the record depends only on the line;
the seed record contributes exactly its `originalIndex`. -/
theorem parseKeyValue_eq_parseKV (l : List Char) (p : KeyValuePair) :
    parseKeyValue l p
      = (parseKV l).map fun x => ⟨x.1, x.2, p.originalIndex⟩ := by
  unfold parseKV kv parseKeyValue
  rcases hs : splitAtColon l with _ | ⟨k, v⟩
  · simp
  · rcases hf : fromCharsU64 k with _ | n
    · simp [hf]
    · simp [hf]

theorem fromCharsU64_lt {k : List Char} {n : Nat} (h : fromCharsU64 k = some n) :
    n < U64 := by
  simp only [fromCharsU64] at h
  split at h
  · simp at h
  · split at h
    · cases h
      assumption
    · simp at h

theorem parseKeyValue_key_lt {l : List Char} {p q : KeyValuePair}
    (h : parseKeyValue l p = some q) : q.key < U64 := by
  unfold parseKeyValue at h
  split at h
  · simp at h
  · split at h
    · simp at h
    · rename_i hf
      cases h
      exact fromCharsU64_lt hf

theorem parseKeyValue_originalIndex {l : List Char} {p q : KeyValuePair}
    (h : parseKeyValue l p = some q) : q.originalIndex = p.originalIndex := by
  rw [parseKeyValue_eq_parseKV] at h
  rcases hk : parseKV l with _ | x <;> rw [hk] at h
  · simp at h
  · simp only [Option.map_some', Option.some.injEq] at h
    rw [← h]

theorem parseKV_of_parse {l : List Char} {p q : KeyValuePair}
    (h : parseKeyValue l p = some q) : parseKV l = some (kv q) := by
  rw [parseKeyValue_eq_parseKV] at h
  rcases hk : parseKV l with _ | x <;> rw [hk] at h
  · simp at h
  · simp only [Option.map_some', Option.some.injEq] at h
    rw [← h]
    rfl

theorem parseKV_none_iff {l : List Char} {p : KeyValuePair} :
    parseKeyValue l p = none ↔ parseKV l = none := by
  rw [parseKeyValue_eq_parseKV]
  rcases hk : parseKV l with _ | x <;> simp

theorem parseKV_formatPair (q : KeyValuePair) (h : q.key < U64) :
    parseKV (formatPair q) = some (kv q) :=
  parseKV_of_parse (parseKeyValue_formatPair q _ h)

theorem fromCharsU64_eq_none_iff (k : List Char) :
    fromCharsU64 k = none ↔ leadDigits k = [] ∨ U64 ≤ decVal (leadDigits k) := by
  simp only [fromCharsU64]
  by_cases h1 : (leadDigits k).isEmpty
  · simp only [h1, if_true]
    simp only [List.isEmpty_iff] at h1
    simp [h1]
  · rw [if_neg (by simpa using h1)]
    simp only [List.isEmpty_iff] at h1
    by_cases h2 : decVal (leadDigits k) < U64
    · rw [if_pos h2]
      simp only [reduceCtorEq, false_iff]
      push_neg
      exact ⟨h1, by omega⟩
    · rw [if_neg h2]
      simp only [true_iff]
      right
      omega

theorem fromCharsU64_eq_some (k : List Char) (h1 : leadDigits k ≠ [])
    (h2 : decVal (leadDigits k) < U64) :
    fromCharsU64 k = some (decVal (leadDigits k)) := by
  simp only [fromCharsU64]
  rw [if_neg (by simpa using h1), if_pos h2]

/-! ## Lemmas about the batch reader -/

/-- `readBatch` consumes some prefix of length `n` of its input, appends to
the accumulator exactly the records of that prefix's parseable lines — each
seeded with its global line number — and advances the line counter by `n`:
every line, malformed or not, advances it. -/
theorem readBatch_spec (bs : Nat) (lines : List (List Char)) :
    ∀ (idx : Nat) (acc : List KeyValuePair), ∃ n, n ≤ lines.length ∧
      readBatch bs lines idx acc
        = (acc ++ ((lines.take n).enumFrom idx).filterMap parseAt,
           lines.drop n, idx + n) := by
  induction lines with
  | nil => exact fun idx acc => ⟨0, by simp [readBatch]⟩
  | cons l ls ih =>
    intro idx acc
    by_cases hb : acc.length < bs
    · rcases hp : parseKeyValue l { key := 0, value := [], originalIndex := idx } with _ | p
      · obtain ⟨n, hn, he⟩ := ih (idx + 1) acc
        refine ⟨n + 1, by simpa using hn, ?_⟩
        have hidx : idx + 1 + n = idx + (n + 1) := by omega
        have hpa : parseAt (idx, l) = none := hp
        simp only [readBatch, if_pos hb, hp, he, hidx, List.take_succ_cons,
          List.drop_succ_cons, List.enumFrom_cons, List.filterMap_cons, hpa]
      · obtain ⟨n, hn, he⟩ := ih (idx + 1) (acc ++ [p])
        refine ⟨n + 1, by simpa using hn, ?_⟩
        have hidx : idx + 1 + n = idx + (n + 1) := by omega
        have hpa : parseAt (idx, l) = some p := hp
        simp only [readBatch, if_pos hb, hp, he, hidx, List.take_succ_cons,
          List.drop_succ_cons, List.enumFrom_cons, List.filterMap_cons, hpa,
          List.append_assoc, List.singleton_append]
    · exact ⟨0, Nat.zero_le _, by simp [readBatch, if_neg hb]⟩

/-- With a positive batch capacity, an empty batch can only mean the input
was exhausted (possibly after skipping malformed lines): nothing is left. -/
theorem readBatch_empty_rest (bs : Nat) (hbs : 0 < bs) (lines : List (List Char)) :
    ∀ idx, (readBatch bs lines idx []).1 = [] → (readBatch bs lines idx []).2.1 = [] := by
  induction lines with
  | nil => intro idx _; simp [readBatch]
  | cons l ls ih =>
    intro idx h
    have hb : ([] : List KeyValuePair).length < bs := by simpa using hbs
    rcases hp : parseKeyValue l { key := 0, value := [], originalIndex := idx } with _ | p
    · simp only [readBatch, if_pos hb, hp] at h ⊢
      exact ih (idx + 1) h
    · exfalso
      simp only [readBatch, if_pos hb, hp] at h
      obtain ⟨n, _, he⟩ := readBatch_spec bs ls (idx + 1) ([] ++ [p])
      rw [he] at h
      simp at h

theorem parseAt_originalIndex {il : Nat × List Char} {q : KeyValuePair}
    (h : parseAt il = some q) : q.originalIndex = il.1 :=
  parseKeyValue_originalIndex h

theorem mem_filterMap_parseAt_le (L : List (List Char)) :
    ∀ j q, q ∈ (L.enumFrom j).filterMap parseAt → j ≤ q.originalIndex := by
  induction L with
  | nil => simp
  | cons l ls ih =>
    intro j q hq
    simp only [List.enumFrom_cons, List.filterMap_cons] at hq
    rcases hp : parseAt (j, l) with _ | p <;> rw [hp] at hq
    · exact le_trans (by omega) (ih (j + 1) q hq)
    · rcases List.mem_cons.mp hq with rfl | hq'
      · simp [parseAt_originalIndex hp]
      · exact le_trans (by omega) (ih (j + 1) q hq')

/-- The records parsed from a line stream carry strictly increasing
`originalIndex` values: each is its line's global line number. -/
theorem filterMap_parseAt_indices_strict (L : List (List Char)) :
    ∀ j, ((L.enumFrom j).filterMap parseAt).Pairwise
      (fun a b => a.originalIndex < b.originalIndex) := by
  induction L with
  | nil => intro j; simp
  | cons l ls ih =>
    intro j
    simp only [List.enumFrom_cons, List.filterMap_cons]
    rcases hp : parseAt (j, l) with _ | p
    · exact ih (j + 1)
    · refine List.pairwise_cons.mpr ⟨?_, ih (j + 1)⟩
      intro q hq
      have h1 := mem_filterMap_parseAt_le ls (j + 1) q hq
      have h2 := parseAt_originalIndex hp
      omega

/-- When the whole input fits in the batch capacity, one batch consumes
everything. -/
theorem readBatch_all (bs : Nat) (lines : List (List Char)) :
    ∀ idx acc, acc.length + lines.length ≤ bs →
      readBatch bs lines idx acc
        = (acc ++ (lines.enumFrom idx).filterMap parseAt, [], idx + lines.length) := by
  induction lines with
  | nil => intro idx acc h; simp [readBatch]
  | cons l ls ih =>
    intro idx acc h
    simp only [List.length_cons] at h
    have hb : acc.length < bs := by omega
    have hidx : idx + 1 + ls.length = idx + (ls.length + 1) := by omega
    rcases hp : parseKeyValue l { key := 0, value := [], originalIndex := idx } with _ | p
    · have hpa : parseAt (idx, l) = none := hp
      simp only [readBatch, if_pos hb, hp, ih (idx + 1) acc (by omega), hidx,
        List.enumFrom_cons, List.filterMap_cons, hpa, List.length_cons]
    · have hpa : parseAt (idx, l) = some p := hp
      simp only [readBatch, if_pos hb, hp,
        ih (idx + 1) (acc ++ [p]) (by simpa using by omega), hidx,
        List.enumFrom_cons, List.filterMap_cons, hpa, List.length_cons,
        List.append_assoc, List.singleton_append]

/-! ## Lemmas about the batch sort -/

theorem insertByKey_perm (p : KeyValuePair) :
    ∀ l, List.Perm (insertByKey p l) (p :: l) := by
  intro l
  induction l with
  | nil => exact List.Perm.refl _
  | cons q qs ih =>
    by_cases hq : q.key ≤ p.key
    · rw [insertByKey, if_pos hq]
      exact (ih.cons q).trans (List.Perm.swap p q qs)
    · rw [insertByKey, if_neg hq]

theorem insertByKey_sorted (p : KeyValuePair) :
    ∀ l, l.Pairwise (fun a b => a.key ≤ b.key) →
      (insertByKey p l).Pairwise (fun a b => a.key ≤ b.key) := by
  intro l
  induction l with
  | nil => intro _; simp [insertByKey]
  | cons q qs ih =>
    intro hs
    obtain ⟨hq1, hq2⟩ := List.pairwise_cons.mp hs
    by_cases hq : q.key ≤ p.key
    · rw [insertByKey, if_pos hq]
      refine List.pairwise_cons.mpr ⟨?_, ih hq2⟩
      intro x hx
      rcases List.mem_cons.mp ((insertByKey_perm p qs).subset hx) with hx' | hx'
      · subst hx'
        omega
      · exact hq1 x hx'
    · rw [insertByKey, if_neg hq]
      refine List.pairwise_cons.mpr ⟨?_, hs⟩
      intro x hx
      rcases List.mem_cons.mp hx with rfl | hx'
      · omega
      · have := hq1 x hx'
        omega

theorem insertByKey_of_le (p : KeyValuePair) :
    ∀ l, (∀ q ∈ l, q.key ≤ p.key) → insertByKey p l = l ++ [p] := by
  intro l
  induction l with
  | nil => intro _; rfl
  | cons q qs ih =>
    intro h
    rw [insertByKey, if_pos (h q (by simp)), ih fun x hx => h x (List.mem_cons_of_mem _ hx)]
    simp

theorem sortRun_foldl_perm :
    ∀ (l acc : List KeyValuePair),
      List.Perm (l.foldl (fun acc p => insertByKey p acc) acc) (acc ++ l) := by
  intro l
  induction l with
  | nil => intro acc; simp
  | cons p ps ih =>
    intro acc
    simp only [List.foldl_cons]
    refine (ih (insertByKey p acc)).trans ?_
    refine (((insertByKey_perm p acc).append_right ps).trans ?_)
    exact List.perm_middle.symm

/-- The batch sort permutes the batch. -/
theorem sortRun_perm (batch : List KeyValuePair) :
    List.Perm (sortRun batch) batch := by
  simpa using sortRun_foldl_perm batch []

theorem sortRun_foldl_sorted :
    ∀ (l acc : List KeyValuePair), acc.Pairwise (fun a b => a.key ≤ b.key) →
      (l.foldl (fun acc p => insertByKey p acc) acc).Pairwise
        (fun a b => a.key ≤ b.key) := by
  intro l
  induction l with
  | nil => intro acc h; simpa using h
  | cons p ps ih =>
    intro acc h
    simp only [List.foldl_cons]
    exact ih _ (insertByKey_sorted p acc h)

/-- The batch sort sorts by key. -/
theorem sortRun_sorted (batch : List KeyValuePair) :
    (sortRun batch).Pairwise fun a b => a.key ≤ b.key :=
  sortRun_foldl_sorted batch [] (by simp)

theorem sortRun_foldl_of_sorted :
    ∀ (l acc : List KeyValuePair), (∀ x ∈ acc, ∀ y ∈ l, x.key ≤ y.key) →
      l.Pairwise (fun a b => a.key ≤ b.key) →
      l.foldl (fun acc p => insertByKey p acc) acc = acc ++ l := by
  intro l
  induction l with
  | nil => intro acc _ _; simp
  | cons p ps ih =>
    intro acc hcross hs
    obtain ⟨hp1, hp2⟩ := List.pairwise_cons.mp hs
    simp only [List.foldl_cons]
    rw [insertByKey_of_le p acc fun q hq => hcross q hq p (by simp)]
    rw [ih (acc ++ [p]) ?hcross hp2]
    · simp
    · intro x hx y hy
      rcases List.mem_append.mp hx with hx' | hx'
      · exact hcross x hx' y (List.mem_cons_of_mem _ hy)
      · simp only [List.mem_singleton] at hx'
        subst hx'
        exact hp1 y hy

/-- A batch already sorted by key is left unchanged — exactly the behaviour
of `std::stable_sort` on sorted input. -/
theorem sortRun_of_sorted (batch : List KeyValuePair)
    (h : batch.Pairwise fun a b => a.key ≤ b.key) : sortRun batch = batch := by
  unfold sortRun
  rw [sortRun_foldl_of_sorted batch [] (by simp) h]
  simp

/-! ## Lemmas about the batch phase -/

/-- Projecting the records produced for the lines of a stream down to their
(key, value) content forgets the line numbering. -/
theorem filterMap_parseAt_map_kv (lines : List (List Char)) :
    ∀ idx, ((lines.enumFrom idx).filterMap parseAt).map kv = lines.filterMap parseKV := by
  induction lines with
  | nil => intro idx; simp
  | cons l ls ih =>
    intro idx
    simp only [List.enumFrom_cons, List.filterMap_cons]
    rcases hp : parseAt (idx, l) with _ | p
    · have : parseKV l = none := parseKV_none_iff.mp hp
      simp [hp, this, ih (idx + 1)]
    · have : parseKV l = some (kv p) := parseKV_of_parse hp
      simp [hp, this, ih (idx + 1)]

/-- Every key of every record of every run is a `uint64_t` value. -/
theorem makeRuns_key_lt (bs : Nat) :
    ∀ fuel lines idx run p, run ∈ makeRuns bs fuel lines idx → p ∈ run → p.key < U64 := by
  intro fuel
  induction fuel with
  | zero => intro lines idx run p hrun; simp [makeRuns] at hrun
  | succ fuel ih =>
    intro lines idx run p hrun hp
    by_cases hB : (readBatch bs lines idx []).1.isEmpty
    · simp [makeRuns, hB] at hrun
    · simp only [makeRuns, if_neg hB, List.mem_cons] at hrun
      rcases hrun with rfl | hrun
      · have hpb : p ∈ (readBatch bs lines idx []).1 :=
          (sortRun_perm _).subset hp
        obtain ⟨n, _, he⟩ := readBatch_spec bs lines idx []
        rw [he] at hpb
        simp only [List.nil_append, List.mem_filterMap] at hpb
        obtain ⟨il, _, hil⟩ := hpb
        exact parseKeyValue_key_lt hil
      · exact ih _ _ _ _ hrun hp

/-- Every run is internally sorted by key: `std::stable_sort` with the
key comparator leaves the batch pairwise non-decreasing in key. -/
theorem makeRuns_run_sorted (bs : Nat) :
    ∀ fuel lines idx run, run ∈ makeRuns bs fuel lines idx →
      run.Pairwise (fun a b => a.key ≤ b.key) := by
  intro fuel
  induction fuel with
  | zero => intro lines idx run hrun; simp [makeRuns] at hrun
  | succ fuel ih =>
    intro lines idx run hrun
    by_cases hB : (readBatch bs lines idx []).1.isEmpty
    · simp [makeRuns, hB] at hrun
    · simp only [makeRuns, if_neg hB, List.mem_cons] at hrun
      rcases hrun with rfl | hrun
      · exact sortRun_sorted (readBatch bs lines idx []).1
      · exact ih _ _ _ hrun

/-- Flattening all runs gives exactly (a permutation of) the records of the
parseable input lines, seeded with their global line numbers. -/
theorem makeRuns_flatten (bs : Nat) (hbs : 0 < bs) :
    ∀ fuel lines idx, lines.length < fuel →
      List.Perm (makeRuns bs fuel lines idx).flatten ((lines.enumFrom idx).filterMap parseAt) := by
  intro fuel
  induction fuel with
  | zero => intro lines idx h; omega
  | succ fuel ih =>
    intro lines idx hfuel
    obtain ⟨n, hn, he⟩ := readBatch_spec bs lines idx []
    by_cases hB : (readBatch bs lines idx []).1.isEmpty
    · have hbatch : (readBatch bs lines idx []).1 = [] := by simpa using hB
      have hrest := readBatch_empty_rest bs hbs lines idx hbatch
      rw [he] at hrest hbatch
      simp only at hrest hbatch
      have hnlen : n = lines.length := by
        have := congrArg List.length hrest
        simp at this
        omega
      simp only [makeRuns, hB, if_pos, List.flatten_nil]
      rw [hnlen, List.take_length] at hbatch
      simp only [List.nil_append] at hbatch
      rw [← hbatch]
    · have hbatch : (readBatch bs lines idx []).1 ≠ [] := by simpa using hB
      have hn1 : 1 ≤ n := by
        rcases Nat.eq_zero_or_pos n with rfl | h
        · rw [he] at hbatch
          simp at hbatch
        · exact h
      have hrec := ih (readBatch bs lines idx []).2.1 (readBatch bs lines idx []).2.2
        (by rw [he]; simp only [List.length_drop]; omega)
      simp only [makeRuns, if_neg hB, List.flatten_cons]
      rw [he] at hrec ⊢
      simp only [List.nil_append] at hrec ⊢
      have hsplit : (lines.enumFrom idx).filterMap parseAt
          = ((lines.take n).enumFrom idx).filterMap parseAt
            ++ ((lines.drop n).enumFrom (idx + n)).filterMap parseAt := by
        conv_lhs => rw [← List.take_append_drop n lines]
        rw [List.enumFrom_append, List.filterMap_append, List.length_take,
          Nat.min_eq_left hn]
      rw [hsplit]
      exact (sortRun_perm _).append hrec

/-! ## Lemmas about `FileEntry::readNext` and merge entries -/

/-- `readNext` never assigns `originalIndex`: the head slot keeps whatever
index it held when the `FileEntry` was constructed. -/
theorem readNext_originalIndex (L : List (List Char)) :
    ∀ p : KeyValuePair, (readNext L p).2.1.originalIndex = p.originalIndex := by
  induction L with
  | nil => intro p; rfl
  | cons l ls ih =>
    intro p
    rcases hp : parseKeyValue l p with _ | q
    · simp only [readNext, hp]
      exact ih p
    · simp only [readNext, hp]
      exact parseKeyValue_originalIndex hp

theorem readNext_false_nil (L : List (List Char)) :
    ∀ p, (readNext L p).2.2 = false → (readNext L p).1 = [] := by
  induction L with
  | nil => intro p _; rfl
  | cons l ls ih =>
    intro p h
    rcases hp : parseKeyValue l p with _ | q
    · simp only [readNext, hp] at h ⊢
      exact ih p h
    · simp only [readNext, hp] at h
      exact absurd h (by simp)

theorem readNext_measure (L : List (List Char)) :
    ∀ p, (readNext L p).1.length + (if (readNext L p).2.2 then 1 else 0)
      < L.length + 1 := by
  induction L with
  | nil => intro p; simp [readNext]
  | cons l ls ih =>
    intro p
    rcases hp : parseKeyValue l p with _ | q
    · simp only [readNext, hp, List.length_cons]
      exact Nat.lt_trans (ih p) (by omega)
    · simp only [readNext, hp, List.length_cons, if_pos]
      omega

/-- Consuming the head of a merge entry leaves exactly the (key, value)
content of its still-unread lines pending. -/
theorem readNext_stream (L : List (List Char)) :
    ∀ p, (if (readNext L p).2.2 then [kv (readNext L p).2.1] else [])
        ++ (readNext L p).1.filterMap parseKV = L.filterMap parseKV := by
  induction L with
  | nil => intro p; rfl
  | cons l ls ih =>
    intro p
    rcases hp : parseKeyValue l p with _ | q
    · have h0 : parseKV l = none := parseKV_none_iff.mp hp
      simp only [readNext, hp, List.filterMap_cons, h0]
      exact ih p
    · have h0 : parseKV l = some (kv q) := parseKV_of_parse hp
      simp [readNext, hp, List.filterMap_cons, h0]

theorem advanceEntry_stream (e : MergeEntry) :
    kvStream (advanceEntry e) = e.lines.filterMap parseKV := by
  unfold kvStream advanceEntry
  exact readNext_stream e.lines e.pair

theorem kvStream_head {e : MergeEntry} (h : e.hasNext = true) :
    kvStream e = kv e.pair :: kvStream (advanceEntry e) := by
  rw [advanceEntry_stream]
  unfold kvStream
  rw [h]
  simp

theorem advanceEntry_WF (e : MergeEntry) : entryWF (advanceEntry e) := by
  intro h
  exact readNext_false_nil e.lines e.pair h

theorem advanceEntry_measure {e : MergeEntry} (h : e.hasNext = true) :
    entryMeasure (advanceEntry e) < entryMeasure e := by
  unfold entryMeasure advanceEntry
  rw [h]
  simpa using readNext_measure e.lines e.pair

theorem advanceEntry_sorted {e : MergeEntry} (hn : e.hasNext = true)
    (h : entrySorted e) : entrySorted (advanceEntry e) := by
  unfold entrySorted at h ⊢
  rw [kvStream_head hn] at h
  exact h.of_cons

theorem initEntry_WF (j : Nat) (content : List (List Char)) :
    entryWF (initEntry j content) := by
  intro h
  exact readNext_false_nil content _ h

theorem initEntry_stream (j : Nat) (content : List (List Char)) :
    kvStream (initEntry j content) = content.filterMap parseKV := by
  unfold kvStream initEntry
  exact readNext_stream content _

/-! ## Lemmas about the selection scan -/

/-- If the scan reports no head at all, no entry it saw had one. -/
theorem scanMinAux_eq_none :
    ∀ (es : List MergeEntry) (i : Nat) (best : Option (Nat × KeyValuePair)),
      scanMinAux es i best = none → best = none ∧ ∀ e ∈ es, e.hasNext = false := by
  intro es
  induction es with
  | nil => intro i best h; exact ⟨h, by simp⟩
  | cons e es ih =>
    intro i best h
    cases hn : e.hasNext with
    | false =>
      simp only [scanMinAux, hn] at h
      obtain ⟨hb, hall⟩ := ih _ _ h
      refine ⟨hb, ?_⟩
      intro x hx
      rcases List.mem_cons.mp hx with rfl | hx
      · exact hn
      · exact hall x hx
    | true =>
      rcases best with _ | ⟨j0, q⟩
      · simp only [scanMinAux, hn] at h
        exact absurd (ih _ _ h).1 (by simp)
      · simp only [scanMinAux, hn] at h
        by_cases hbet : better e.pair q = true
        · rw [if_pos hbet] at h
          exact absurd (ih _ _ h).1 (by simp)
        · rw [if_neg hbet] at h
          exact absurd (ih _ _ h).1 (by simp)

/-- A successful scan either returns the carried best as-is or points at an
actual entry of the scanned list whose head is pending. -/
theorem scanMinAux_some_spec :
    ∀ (es : List MergeEntry) (i : Nat) (best : Option (Nat × KeyValuePair))
      (j : Nat) (p : KeyValuePair),
      scanMinAux es i best = some (j, p) →
        best = some (j, p) ∨
          (i ≤ j ∧ ∃ e, es[j - i]? = some e ∧ e.hasNext = true ∧ e.pair = p) := by
  intro es
  induction es with
  | nil => intro i best j p h; exact Or.inl h
  | cons e es ih =>
    intro i best j p h
    cases hn : e.hasNext with
    | false =>
      simp only [scanMinAux, hn] at h
      rcases ih _ _ _ _ h with hb | ⟨hij, e', hget, hne, hpe⟩
      · exact Or.inl hb
      · refine Or.inr ⟨by omega, e', ?_, hne, hpe⟩
        have hsub : j - i = (j - (i + 1)) + 1 := by omega
        rw [hsub]
        simpa using hget
    | true =>
      have step : ∀ best', scanMinAux es (i + 1) best' = some (j, p) →
          best' = some (i, e.pair) →
          (i ≤ j ∧ ∃ x, (e :: es)[j - i]? = some x ∧ x.hasNext = true ∧ x.pair = p) := by
        intro best' h' hb'
        subst hb'
        rcases ih _ _ _ _ h' with hb | ⟨hij, e', hget, hne, hpe⟩
        · simp only [Option.some.injEq, Prod.mk.injEq] at hb
          obtain ⟨rfl, rfl⟩ := hb
          refine ⟨le_refl _, e, ?_, hn, rfl⟩
          simp
        · refine ⟨by omega, e', ?_, hne, hpe⟩
          have hsub : j - i = (j - (i + 1)) + 1 := by omega
          rw [hsub]
          simpa using hget
      rcases best with _ | ⟨j0, q⟩
      · simp only [scanMinAux, hn] at h
        exact Or.inr (step _ h rfl)
      · simp only [scanMinAux, hn] at h
        by_cases hbet : better e.pair q = true
        · rw [if_pos hbet] at h
          exact Or.inr (step _ h rfl)
        · rw [if_neg hbet] at h
          rcases ih _ _ _ _ h with hb | ⟨hij, e', hget, hne, hpe⟩
          · exact Or.inl hb
          · refine Or.inr ⟨by omega, e', ?_, hne, hpe⟩
            have hsub : j - i = (j - (i + 1)) + 1 := by omega
            rw [hsub]
            simpa using hget

/-- The selected head's key is a lower bound: on the carried best and on the
head of every scanned entry that still has one. -/
theorem scanMinAux_min_key :
    ∀ (es : List MergeEntry) (i : Nat) (best : Option (Nat × KeyValuePair))
      (j : Nat) (p : KeyValuePair),
      scanMinAux es i best = some (j, p) →
        (∀ j0 q, best = some (j0, q) → p.key ≤ q.key) ∧
        (∀ e ∈ es, e.hasNext = true → p.key ≤ e.pair.key) := by
  intro es
  induction es with
  | nil =>
    intro i best j p h
    refine ⟨?_, by simp⟩
    intro j0 q hb
    have h' : scanMinAux [] i best = best := rfl
    rw [h', hb] at h
    simp only [Option.some.injEq, Prod.mk.injEq] at h
    obtain ⟨-, rfl⟩ := h
    exact le_refl _
  | cons e es ih =>
    intro i best j p h
    cases hn : e.hasNext with
    | false =>
      simp only [scanMinAux, hn] at h
      obtain ⟨h1, h2⟩ := ih _ _ _ _ h
      refine ⟨h1, ?_⟩
      intro x hx hxn
      rcases List.mem_cons.mp hx with rfl | hx
      · rw [hn] at hxn
        cases hxn
      · exact h2 x hx hxn
    | true =>
      rcases best with _ | ⟨j0, q⟩
      · simp only [scanMinAux, hn] at h
        obtain ⟨h1, h2⟩ := ih _ _ _ _ h
        have hpe : p.key ≤ e.pair.key := h1 i e.pair rfl
        refine ⟨fun j1 q1 hb => (nomatch hb), ?_⟩
        intro x hx hxn
        rcases List.mem_cons.mp hx with rfl | hx
        · exact hpe
        · exact h2 x hx hxn
      · simp only [scanMinAux, hn] at h
        by_cases hbet : better e.pair q = true
        · rw [if_pos hbet] at h
          obtain ⟨h1, h2⟩ := ih _ _ _ _ h
          have hpe : p.key ≤ e.pair.key := h1 i e.pair rfl
          have heq : e.pair.key ≤ q.key := by
            simp only [better, Bool.or_eq_true, Bool.and_eq_true, decide_eq_true_eq,
              beq_iff_eq] at hbet
            rcases hbet with hlt | ⟨heqk, -⟩ <;> omega
          refine ⟨?_, ?_⟩
          · intro j1 q1 hb
            simp only [Option.some.injEq, Prod.mk.injEq] at hb
            obtain ⟨-, rfl⟩ := hb
            exact le_trans hpe heq
          · intro x hx hxn
            rcases List.mem_cons.mp hx with rfl | hx
            · exact hpe
            · exact h2 x hx hxn
        · rw [if_neg hbet] at h
          obtain ⟨h1, h2⟩ := ih _ _ _ _ h
          have hpq : p.key ≤ q.key := h1 j0 q rfl
          have hqe : q.key ≤ e.pair.key := by
            simp only [better, Bool.or_eq_true, Bool.and_eq_true, decide_eq_true_eq,
              beq_iff_eq] at hbet
            have : ¬ e.pair.key < q.key := fun hlt => hbet (Or.inl hlt)
            omega
          refine ⟨?_, ?_⟩
          · intro j1 q1 hb
            simp only [Option.some.injEq, Prod.mk.injEq] at hb
            obtain ⟨-, rfl⟩ := hb
            exact hpq
          · intro x hx hxn
            rcases List.mem_cons.mp hx with rfl | hx
            · exact le_trans hpq hqe
            · exact h2 x hx hxn

/-- Decomposing a list around an index that holds `e`, and the effect of
`set` at that index. -/
theorem getElem?_set_decomp {α : Type _} :
    ∀ (l : List α) (j : Nat) (e : α), l[j]? = some e →
      l = l.take j ++ e :: l.drop (j + 1)
        ∧ ∀ x, l.set j x = l.take j ++ x :: l.drop (j + 1) := by
  intro l
  induction l with
  | nil => intro j e h; simp at h
  | cons a as ih =>
    intro j e h
    cases j with
    | zero =>
      simp only [List.getElem?_cons_zero, Option.some.injEq] at h
      subst h
      exact ⟨by simp, fun x => by simp⟩
    | succ j =>
      simp only [List.getElem?_cons_succ] at h
      obtain ⟨h1, h2⟩ := ih j e h
      constructor
      · simp only [List.take_succ_cons, List.drop_succ_cons, List.cons_append]
        rw [← h1]
      · intro x
        simp only [List.set_cons_succ, List.take_succ_cons, List.drop_succ_cons,
          List.cons_append, h2 x]

/-! ## Lemmas about the merge loop -/

theorem totalMeasure_append (A B : List MergeEntry) :
    totalMeasure (A ++ B) = totalMeasure A + totalMeasure B := by
  simp [totalMeasure]

theorem totalMeasure_cons (e : MergeEntry) (B : List MergeEntry) :
    totalMeasure (e :: B) = entryMeasure e + totalMeasure B := by
  simp [totalMeasure]

theorem advanceAt_decomp {entries : List MergeEntry} {j : Nat} {e : MergeEntry}
    (h : entries[j]? = some e) :
    entries = entries.take j ++ e :: entries.drop (j + 1)
      ∧ advanceAt entries j
          = entries.take j ++ advanceEntry e :: entries.drop (j + 1) := by
  obtain ⟨h1, h2⟩ := getElem?_set_decomp entries j e h
  refine ⟨h1, ?_⟩
  simp only [advanceAt, h]
  exact h2 _

theorem advanceAt_measure {entries : List MergeEntry} {j : Nat} {e : MergeEntry}
    (hget : entries[j]? = some e) (hne : e.hasNext = true) :
    totalMeasure (advanceAt entries j) < totalMeasure entries := by
  obtain ⟨hdec, hadv⟩ := advanceAt_decomp hget
  rw [hadv]
  conv_rhs => rw [hdec]
  rw [totalMeasure_append, totalMeasure_cons, totalMeasure_append, totalMeasure_cons]
  have := advanceEntry_measure hne
  omega

theorem mem_advanceAt {entries : List MergeEntry} {j : Nat} {e : MergeEntry}
    (hget : entries[j]? = some e) :
    ∀ x ∈ advanceAt entries j, x ∈ entries ∨ x = advanceEntry e := by
  obtain ⟨hdec, hadv⟩ := advanceAt_decomp hget
  intro x hx
  rw [hadv] at hx
  rcases List.mem_append.mp hx with hx | hx
  · exact Or.inl (by rw [hdec]; exact List.mem_append.mpr (Or.inl hx))
  · rcases List.mem_cons.mp hx with rfl | hx
    · exact Or.inr rfl
    · exact Or.inl (by
        rw [hdec]
        exact List.mem_append.mpr (Or.inr (List.mem_cons.mpr (Or.inr hx))))

/-- Conservation of the k-way merge: mapped down to (key, value) content,
the emitted records are a permutation of everything pending in the
entries. -/
theorem mergeLoop_perm :
    ∀ (fuel : Nat) (entries : List MergeEntry),
      totalMeasure entries < fuel → (∀ e ∈ entries, entryWF e) →
      List.Perm ((mergeLoop fuel entries).map kv) ((entries.map kvStream).flatten) := by
  intro fuel
  induction fuel with
  | zero => intro entries h _; omega
  | succ fuel ih =>
    intro entries hfuel hwf
    rcases hscan : scanMinAux entries 0 none with _ | ⟨j, p⟩
    · simp only [mergeLoop, hscan, List.map_nil]
      obtain ⟨-, hall⟩ := scanMinAux_eq_none entries 0 none hscan
      have hnil : ∀ S ∈ entries.map kvStream, S = [] := by
        intro S hS
        obtain ⟨e, he, rfl⟩ := List.mem_map.mp hS
        have h1 : e.hasNext = false := hall e he
        have h2 : e.lines = [] := hwf e he h1
        unfold kvStream
        rw [h1, h2]
        simp
      rw [List.flatten_eq_nil_iff.mpr hnil]
    · rcases scanMinAux_some_spec entries 0 none j p hscan with hb | ⟨-, e, hget, hne, hpe⟩
      · exact absurd hb (by simp)
      · simp only [Nat.sub_zero] at hget
        obtain ⟨hdec, hadv⟩ := advanceAt_decomp hget
        have hwf' : ∀ x ∈ advanceAt entries j, entryWF x := by
          intro x hx
          rcases mem_advanceAt hget x hx with hx | rfl
          · exact hwf x hx
          · exact advanceEntry_WF e
        have hrec := ih (advanceAt entries j)
          (by have := advanceAt_measure hget hne; omega) hwf'
        have hstream : kvStream e = kv p :: kvStream (advanceEntry e) := by
          rw [kvStream_head hne, hpe]
        simp only [mergeLoop, hscan, List.map_cons]
        refine List.Perm.trans (List.Perm.cons (kv p) hrec) ?_
        rw [hadv]
        conv_rhs => rw [hdec]
        simp only [List.map_append, List.map_cons, List.flatten_append, List.flatten_cons]
        rw [hstream]
        simp only [List.cons_append, List.append_assoc]
        exact List.perm_middle.symm

/-- Lower bound propagation: if `k` bounds the head key of an entry, it
bounds every key of its pending stream. -/
theorem key_lower_bound {x : MergeEntry} (hwfx : entryWF x) (hsx : entrySorted x)
    {k : Nat} (hk : x.hasNext = true → k ≤ x.pair.key) :
    ∀ y ∈ kvStream x, k ≤ y.1 := by
  intro y hy
  cases hxn : x.hasNext with
  | false =>
    have hlin : x.lines = [] := hwfx hxn
    unfold kvStream at hy
    rw [hxn, hlin] at hy
    simp at hy
  | true =>
    unfold entrySorted at hsx
    rw [kvStream_head hxn] at hsx hy
    rcases List.mem_cons.mp hy with rfl | hy
    · simpa [kv] using hk hxn
    · have h1 := (List.pairwise_cons.mp hsx).1 y hy
      have h2 := hk hxn
      simp only [kv] at h1
      omega

/-- Sortedness of the k-way merge: when every entry's pending stream is
key-sorted, the emitted record sequence is key-sorted. -/
theorem mergeLoop_sorted :
    ∀ (fuel : Nat) (entries : List MergeEntry),
      totalMeasure entries < fuel →
      (∀ e ∈ entries, entryWF e) → (∀ e ∈ entries, entrySorted e) →
      (mergeLoop fuel entries).Pairwise (fun a b => a.key ≤ b.key) := by
  intro fuel
  induction fuel with
  | zero => intro entries h _ _; omega
  | succ fuel ih =>
    intro entries hfuel hwf hsort
    rcases hscan : scanMinAux entries 0 none with _ | ⟨j, p⟩
    · simp [mergeLoop, hscan]
    · rcases scanMinAux_some_spec entries 0 none j p hscan with hb | ⟨-, e, hget, hne, hpe⟩
      · exact absurd hb (by simp)
      · simp only [Nat.sub_zero] at hget
        have hmem : e ∈ entries := List.getElem?_mem hget
        have hmin := (scanMinAux_min_key entries 0 none j p hscan).2
        have hwf' : ∀ x ∈ advanceAt entries j, entryWF x := by
          intro x hx
          rcases mem_advanceAt hget x hx with hx | rfl
          · exact hwf x hx
          · exact advanceEntry_WF e
        have hsort' : ∀ x ∈ advanceAt entries j, entrySorted x := by
          intro x hx
          rcases mem_advanceAt hget x hx with hx | rfl
          · exact hsort x hx
          · exact advanceEntry_sorted hne (hsort e hmem)
        have hms := advanceAt_measure hget hne
        have hstream : kvStream e = kv p :: kvStream (advanceEntry e) := by
          rw [kvStream_head hne, hpe]
        simp only [mergeLoop, hscan]
        refine List.pairwise_cons.mpr ⟨?_, ih _ (by omega) hwf' hsort'⟩
        intro b hb
        -- locate (kv b) in the pending streams of the advanced entries
        have hperm := mergeLoop_perm fuel (advanceAt entries j) (by omega) hwf'
        have hkvb : kv b ∈ ((advanceAt entries j).map kvStream).flatten :=
          hperm.subset (List.mem_map_of_mem kv hb)
        obtain ⟨S, hS, hbS⟩ := List.mem_flatten.mp hkvb
        obtain ⟨x, hx, rfl⟩ := List.mem_map.mp hS
        have hbound : ∀ y ∈ kvStream x, p.key ≤ y.1 := by
          rcases mem_advanceAt hget x hx with hx' | rfl
          · exact key_lower_bound (hwf x hx') (hsort x hx') fun hxn => hmin x hx' hxn
          · intro y hy
            have hse : entrySorted e := hsort e hmem
            unfold entrySorted at hse
            rw [hstream] at hse
            have := (List.pairwise_cons.mp hse).1 y hy
            simpa [kv] using this
        have := hbound (kv b) hbS
        simpa [kv] using this

/-! ## The merge entries built from the run files -/

/-- Re-parsing a run file recovers the (key, value) content of its records:
every key below `2 ^ 64` prints and re-parses exactly. -/
theorem filterMap_parseKV_format (run : List KeyValuePair)
    (h : ∀ p ∈ run, p.key < U64) :
    (run.map formatPair).filterMap parseKV = run.map kv := by
  induction run with
  | nil => simp
  | cons p ps ih =>
    simp only [List.map_cons, List.filterMap_cons, parseKV_formatPair p (h p (by simp))]
    rw [ih fun x hx => h x (List.mem_cons_of_mem _ hx)]

theorem snd_mem_of_mem_enum {α : Type _} {x : Nat × α} {l : List α}
    (h : x ∈ l.enum) : x.2 ∈ l := by
  have := List.mem_map_of_mem Prod.snd h
  rwa [List.enum_map_snd] at this

theorem mergeEntries_WF (junk : Nat → Nat) (runs : List (List KeyValuePair)) :
    ∀ e ∈ mergeEntries junk runs, entryWF e := by
  intro e he
  obtain ⟨ir, -, rfl⟩ := List.mem_map.mp he
  exact initEntry_WF _ _

theorem mergeEntries_stream (junk : Nat → Nat) (runs : List (List KeyValuePair))
    (hkeys : ∀ run ∈ runs, ∀ p ∈ run, p.key < U64) :
    (mergeEntries junk runs).map kvStream = runs.map fun run => run.map kv := by
  unfold mergeEntries
  rw [List.map_map]
  have hcong : ∀ ir ∈ runs.enum,
      (kvStream ∘ fun ir => initEntry (junk ir.1) (ir.2.map formatPair)) ir
        = ((fun run => run.map kv) ∘ Prod.snd) ir := by
    intro ir hir
    simp only [Function.comp]
    rw [initEntry_stream, filterMap_parseKV_format _ (hkeys ir.2 (snd_mem_of_mem_enum hir))]
  rw [List.map_congr_left hcong, ← List.map_map, List.enum_map_snd]

theorem mergeEntries_sorted (junk : Nat → Nat) (runs : List (List KeyValuePair))
    (hkeys : ∀ run ∈ runs, ∀ p ∈ run, p.key < U64)
    (hsorted : ∀ run ∈ runs, run.Pairwise fun a b => a.key ≤ b.key) :
    ∀ e ∈ mergeEntries junk runs, entrySorted e := by
  intro e he
  obtain ⟨ir, hir, rfl⟩ := List.mem_map.mp he
  unfold entrySorted
  rw [initEntry_stream,
    filterMap_parseKV_format _ (hkeys ir.2 (snd_mem_of_mem_enum hir))]
  have := hsorted ir.2 (snd_mem_of_mem_enum hir)
  exact List.pairwise_map.mpr (this.imp fun h => by simpa [kv] using h)

/-! ## Top-level properties of the pure pipeline -/

/-- Sortedness of the whole program's output, for EVERY content of the
uninitialised merge memory: the record sequence written to the output file
is pairwise non-decreasing in key. -/
theorem runSortRecords_key_sorted (bs : Nat) (junk : Nat → Nat)
    (lines : List (List Char)) :
    (runSortRecords bs junk lines).Pairwise (fun a b => a.key ≤ b.key) := by
  rcases h : runsOf bs lines with _ | ⟨r, _ | ⟨r2, rs⟩⟩
  · simp [runSortRecords, h]
  · simp only [runSortRecords, h]
    exact makeRuns_run_sorted bs _ lines 0 r (by
      have : r ∈ runsOf bs lines := by rw [h]; simp
      simpa [runsOf] using this)
  · simp only [runSortRecords, h]
    have hmemruns : ∀ run ∈ r :: r2 :: rs, run ∈ makeRuns bs (lines.length + 1) lines 0 := by
      intro run hrun
      have : run ∈ runsOf bs lines := by rw [h]; exact hrun
      simpa [runsOf] using this
    exact mergeLoop_sorted _ _ (Nat.lt_succ_self _)
      (mergeEntries_WF junk _)
      (mergeEntries_sorted junk _
        (fun run hrun p hp => makeRuns_key_lt bs _ lines 0 run p (hmemruns run hrun) hp)
        (fun run hrun => makeRuns_run_sorted bs _ lines 0 run (hmemruns run hrun)))

/-- Conservation of the whole program's output, for every content of the
uninitialised merge memory: mapped to (key, value) content, the output
records are a permutation of the parseable input lines. -/
theorem runSortRecords_conservation (bs : Nat) (junk : Nat → Nat)
    (lines : List (List Char)) (hbs : 0 < bs) :
    List.Perm ((runSortRecords bs junk lines).map kv) (lines.filterMap parseKV) := by
  have hflat := makeRuns_flatten bs hbs (lines.length + 1) lines 0 (Nat.lt_succ_self _)
  rcases h : runsOf bs lines with _ | ⟨r, _ | ⟨r2, rs⟩⟩ <;>
    rw [show makeRuns bs (lines.length + 1) lines 0 = runsOf bs lines from rfl, h] at hflat
  · simp only [runSortRecords, h, List.map_nil]
    have hnil : (lines.enumFrom 0).filterMap parseAt = [] := by
      have hflat' : List.Perm [] ((lines.enumFrom 0).filterMap parseAt) := by
        simpa using hflat
      exact hflat'.nil_eq.symm
    rw [← filterMap_parseAt_map_kv lines 0, hnil]
    simp
  · simp only [runSortRecords, h]
    rw [← filterMap_parseAt_map_kv lines 0]
    refine List.Perm.map kv ?_
    simpa using hflat
  · simp only [runSortRecords, h]
    have hmemruns : ∀ run ∈ r :: r2 :: rs, run ∈ makeRuns bs (lines.length + 1) lines 0 := by
      intro run hrun
      have : run ∈ runsOf bs lines := by rw [h]; exact hrun
      simpa [runsOf] using this
    have hkeys : ∀ run ∈ r :: r2 :: rs, ∀ p ∈ run, p.key < U64 :=
      fun run hrun p hp => makeRuns_key_lt bs _ lines 0 run p (hmemruns run hrun) hp
    have hperm := mergeLoop_perm (totalMeasure (mergeEntries junk (r :: r2 :: rs)) + 1)
      (mergeEntries junk (r :: r2 :: rs)) (Nat.lt_succ_self _) (mergeEntries_WF junk _)
    refine hperm.trans ?_
    rw [mergeEntries_stream junk _ hkeys, ← List.map_flatten]
    rw [← filterMap_parseAt_map_kv lines 0]
    exact List.Perm.map kv hflat

/-! ## The claims -/

/-- C1 (code bug): the stability invariant — for equal keys, the record of
the earlier input line precedes the record of the later one in the final
output, reconstructed by the merge's (key, originalIndex) tie-break — is NOT
implemented.  `sortBatch` persists only `key:value` into a run file and
`parseKeyValue` never assigns `originalIndex`, so the tie-break at source
lines 181-182 compares `FileEntry.currentPair.originalIndex` fields that
hold uninitialised memory, not original positions.  Evaluated here: with
batch capacity 2, input lines `5:a`, `5:b`, `5:c` (split into two runs) and
memory contents giving run 0's entry the junk index 1 and run 1's entry the
junk index 0, the program outputs c, a, b — the equal-key records are not in
input order, falsifying the claim at this input. -/
theorem claim1_stability_bug_eval :
    (runSortRecords 2 (fun i => 1 - i) [strL "5:a", strL "5:b", strL "5:c"]).map kv
        = [(5, strL "c"), (5, strL "a"), (5, strL "b")]
      ∧ [strL "5:a", strL "5:b", strL "5:c"].filterMap parseKV
        = [(5, strL "a"), (5, strL "b"), (5, strL "c")] := by
  constructor <;> decide

/-- C2 (confirmed): Sortedness — for every batch capacity, every content of
the uninitialised merge memory and every input file, adjacent records of the
produced output have non-decreasing keys; the output file is exactly the
formatted record sequence. -/
theorem claim2_sortedness (bs : Nat) (junk : Nat → Nat) (lines : List (List Char)) :
    (runSortRecords bs junk lines).Pairwise (fun a b => a.key ≤ b.key)
      ∧ runSort bs junk lines = (runSortRecords bs junk lines).map formatPair :=
  ⟨runSortRecords_key_sorted bs junk lines, rfl⟩

/-- C3 (confirmed): Conservation — with the program's positive batch
capacity, for every content of the uninitialised merge memory and every
input file, the multiset of (key, value) pairs of the output records equals
(is a permutation of) the multiset of successfully parsed input lines, and
in particular the output record count equals the count of well-formed input
lines. -/
theorem claim3_conservation (bs : Nat) (junk : Nat → Nat) (lines : List (List Char))
    (hbs : 0 < bs) :
    List.Perm ((runSortRecords bs junk lines).map kv) (lines.filterMap parseKV)
      ∧ (runSortRecords bs junk lines).length = (lines.filterMap parseKV).length := by
  have h := runSortRecords_conservation bs junk lines hbs
  refine ⟨h, ?_⟩
  simpa using h.length_eq

theorem claim3_conservation_witness :
    0 < BATCH_SIZE
      ∧ (List.Perm
            ((runSortRecords BATCH_SIZE (fun _ => 0)
                [strL "2:p", strL "notakey", strL "1:q"]).map kv)
            ([strL "2:p", strL "notakey", strL "1:q"].filterMap parseKV)
          ∧ (runSortRecords BATCH_SIZE (fun _ => 0)
              [strL "2:p", strL "notakey", strL "1:q"]).length
            = ([strL "2:p", strL "notakey", strL "1:q"].filterMap parseKV).length) :=
  ⟨by decide,
    claim3_conservation BATCH_SIZE (fun _ => 0)
      [strL "2:p", strL "notakey", strL "1:q"] (by decide)⟩

/-- C4 (code bug): a failure to create a temporary run file is NOT fatal.
`sortBatch` returns `false` both at end of input (source line 79) and when
its temp file cannot be created (source line 93); the batch loop in `sort`
(line 226) cannot tell the two apart, so it stops reading, proceeds with the
runs created so far (here: none, so it takes the empty-input path at lines
233-241), returns `true`, and `main` exits 0.  Evaluated here: input with
the single well-formed line `1:a` and an environment in which creating
`.temp0` fails — the program presents an EMPTY output file as the complete
result and reports success, where the claim requires a non-zero exit and no
partial output. -/
theorem claim4_resource_failure_eval :
    sortFile BATCH_SIZE
        { inputOpenOk := true, tempCreateOk := fun _ => false,
          tempOpenOk := fun _ => true, outputOk := true, junk := fun _ => 0 }
        [strL "1:a"]
      = { ok := true, output := some [], tempsCreated := [], tempsDeleted := [] }
      ∧ [strL "1:a"].filterMap parseKV = [(1, strL "a")] := by
  constructor <;> decide

/-- C5 (counterexample): a key portion with trailing non-digit garbage is
NOT rejected — `12abc:v` parses successfully with key 12 and value `v`,
because the source checks only the error code of `from_chars` and never that
the whole key portion was consumed. -/
theorem claim5_counterexample :
    parseKeyValue (strL "12abc:v") { key := 0, value := [], originalIndex := 0 }
      = some { key := 12, value := strL "v", originalIndex := 0 } := by
  decide

/-- C5 (amended): parse returns Malformed exactly when the line has no
colon, or the key portion does not start with a decimal digit, or the value
of its leading digit run exceeds the unsigned 64-bit range; otherwise it
succeeds and the key is the value of the leading digit run — trailing
garbage between the digits and the colon is ignored, not an error. -/
theorem claim5_parse_characterization (l : List Char) (p : KeyValuePair) :
    (parseKeyValue l p = none
      ↔ splitAtColon l = none
        ∨ ∃ k v, splitAtColon l = some (k, v)
            ∧ (leadDigits k = [] ∨ U64 ≤ decVal (leadDigits k)))
    ∧ ∀ k v, splitAtColon l = some (k, v) → leadDigits k ≠ [] →
        decVal (leadDigits k) < U64 →
        parseKeyValue l p
          = some { key := decVal (leadDigits k), value := v,
                   originalIndex := p.originalIndex } := by
  constructor
  · rcases hs : splitAtColon l with _ | ⟨k, v⟩
    · simp only [parseKeyValue, hs]
      simp
    · simp only [parseKeyValue, hs]
      rcases hf : fromCharsU64 k with _ | n
      · simp only [hf, true_iff]
        exact Or.inr ⟨k, v, rfl, (fromCharsU64_eq_none_iff k).mp hf⟩
      · simp only [hf, reduceCtorEq, false_iff]
        push_neg
        refine ⟨by simp, ?_⟩
        intro k' v' hkv
        simp only [Option.some.injEq, Prod.mk.injEq] at hkv
        obtain ⟨rfl, rfl⟩ := hkv
        constructor
        · intro hld
          have h0 : fromCharsU64 k = none :=
            (fromCharsU64_eq_none_iff k).mpr (Or.inl hld)
          rw [h0] at hf
          exact absurd hf (by simp)
        · by_contra hge
          have h0 : fromCharsU64 k = none :=
            (fromCharsU64_eq_none_iff k).mpr (Or.inr (by omega))
          rw [h0] at hf
          exact absurd hf (by simp)
  · intro k v hs h1 h2
    simp only [parseKeyValue, hs, fromCharsU64_eq_some k h1 h2]

/-- C6 (counterexample): a malformed line DOES consume an `originalIndex`
slot — `lineIndex++` at source line 75 runs for every line read.  On input
`2:p`, `notakey`, `1:q` the two parsed records carry indices 0 and 2, not
the consecutive 0 and 1 the claim requires. -/
theorem claim6_counterexample :
    (readBatch BATCH_SIZE [strL "2:p", strL "notakey", strL "1:q"] 0 []).1.map
        (fun p => p.originalIndex) = [0, 2]
      ∧ [0, 2] ≠ [0, 1] := by
  constructor <;> decide

/-- C6 (amended): every line read — well-formed or malformed — advances the
index counter, so each record's `originalIndex` is the global 0-based line
number of its source line; across the records of a batch the indices are
strictly increasing, but not consecutive when malformed lines intervene. -/
theorem claim6_line_numbering (bs : Nat) (lines : List (List Char)) (idx : Nat) :
    (∃ n, n ≤ lines.length ∧
        readBatch bs lines idx []
          = (((lines.take n).enumFrom idx).filterMap parseAt, lines.drop n, idx + n))
      ∧ ((readBatch bs lines idx []).1.map fun p => p.originalIndex).Pairwise
          (· < ·) := by
  obtain ⟨n, hn, he⟩ := readBatch_spec bs lines idx []
  simp only [List.nil_append] at he
  refine ⟨⟨n, hn, he⟩, ?_⟩
  rw [he]
  simp only []
  refine List.pairwise_map.mpr ?_
  exact filterMap_parseAt_indices_strict (lines.take n) idx

/-- C7 (counterexample): `originalIndex` is not restored by the round trip —
formatting writes only `key:value`, and parsing leaves the field at whatever
the caller's record held.  Formatting the record (1, a, 5) and re-parsing it
into a record whose index field holds 0 yields (1, a, 0) ≠ (1, a, 5). -/
theorem claim7_counterexample :
    parseKeyValue (formatPair { key := 1, value := strL "a", originalIndex := 5 })
        { key := 0, value := [], originalIndex := 0 }
      = some { key := 1, value := strL "a", originalIndex := 0 }
      ∧ ({ key := 1, value := strL "a", originalIndex := 0 } : KeyValuePair)
        ≠ { key := 1, value := strL "a", originalIndex := 5 } := by
  constructor <;> decide

/-- C7 (amended): the codec round trip restores key and value for every
record whose key is a `uint64_t` value (every parsed record satisfies this,
and the value may even contain colons or be empty); `originalIndex` is taken
from the in-out record supplied by the caller, since the line does not carry
it. -/
theorem claim7_roundtrip (r p : KeyValuePair) (h : r.key < U64) :
    parseKeyValue (formatPair r) p
      = some { key := r.key, value := r.value, originalIndex := p.originalIndex } :=
  parseKeyValue_formatPair r p h

theorem claim7_roundtrip_witness :
    (7 : Nat) < U64
      ∧ parseKeyValue
          (formatPair { key := 7, value := strL "x:y", originalIndex := 3 })
          { key := 0, value := [], originalIndex := 9 }
        = some { key := 7, value := strL "x:y", originalIndex := 9 } :=
  ⟨by decide,
    claim7_roundtrip { key := 7, value := strL "x:y", originalIndex := 3 }
      { key := 0, value := [], originalIndex := 9 } (by decide)⟩

/-- C8 (counterexample): the failure paths of the merge leak temp files.
With two runs created and the final output failing to open, the merge
returns at source line 168 without deleting either temp file: the invocation
ends with temps 0 and 1 created and none deleted. -/
theorem claim8_counterexample :
    sortFile 1
        { inputOpenOk := true, tempCreateOk := fun _ => true,
          tempOpenOk := fun _ => true, outputOk := false, junk := fun _ => 0 }
        [strL "1:a", strL "2:b"]
      = { ok := false, output := none, tempsCreated := [0, 1], tempsDeleted := [] }
      ∧ ([] : List Nat) ≠ [0, 1] := by
  constructor <;> decide

/-- C8 (amended): cleanup holds on the success path only — whenever the sort
reports success, every temp file it created was deleted; the merge-phase
failure returns (temp open failure at source line 160, output creation
failure at line 168, and line 118 on the fast path) delete nothing. -/
theorem claim8_cleanup_on_success (bs : Nat) (env : Env) (lines : List (List Char))
    (h : (sortFile bs env lines).ok = true) :
    (sortFile bs env lines).tempsDeleted = (sortFile bs env lines).tempsCreated := by
  unfold sortFile at h ⊢
  by_cases h1 : env.inputOpenOk = false
  · rw [if_pos h1] at h
    exact absurd h (by simp)
  · rw [if_neg h1] at h ⊢
    rcases hr : batchPhase bs env (lines.length + 1) lines 0 0 with _ | ⟨r, _ | ⟨r2, rs⟩⟩ <;>
      simp only [hr] at h ⊢
    · by_cases h2 : env.outputOk = true
      · rw [if_pos h2]
      · rw [if_neg h2] at h
        exact absurd h (by simp)
    · by_cases h2 : (env.tempOpenOk 0 && env.outputOk) = true
      · rw [if_pos h2]
      · rw [if_neg h2] at h
        exact absurd h (by simp)
    · by_cases h2 : ((List.range (r :: r2 :: rs).length).all env.tempOpenOk) = true
      · rw [if_pos h2] at h ⊢
        by_cases h3 : env.outputOk = true
        · rw [if_pos h3]
        · rw [if_neg h3] at h
          exact absurd h (by simp)
      · rw [if_neg h2] at h
        exact absurd h (by simp)

theorem claim8_cleanup_on_success_witness :
    (sortFile BATCH_SIZE
        { inputOpenOk := true, tempCreateOk := fun _ => true,
          tempOpenOk := fun _ => true, outputOk := true, junk := fun _ => 0 }
        [strL "1:a"]).ok = true
      ∧ (sortFile BATCH_SIZE
          { inputOpenOk := true, tempCreateOk := fun _ => true,
            tempOpenOk := fun _ => true, outputOk := true, junk := fun _ => 0 }
          [strL "1:a"]).tempsDeleted
        = (sortFile BATCH_SIZE
            { inputOpenOk := true, tempCreateOk := fun _ => true,
              tempOpenOk := fun _ => true, outputOk := true, junk := fun _ => 0 }
            [strL "1:a"]).tempsCreated :=
  ⟨by decide, claim8_cleanup_on_success BATCH_SIZE _ [strL "1:a"] (by decide)⟩

/-- C9 (counterexample): re-sorting is not byte-identity on every sorted
file of the input format.  The one-line file `01:a` is well-formed (it
parses, with key 1) and trivially sorted, yet the sorter re-prints the key
without its leading zero: the output file is `1:a`, not byte-identical to
the input. -/
theorem claim9_counterexample :
    [strL "01:a"].filterMap parseKV = [(1, strL "a")]
      ∧ runSort BATCH_SIZE (fun _ => 0) [strL "01:a"] = [strL "1:a"]
      ∧ [strL "1:a"] ≠ [strL "01:a"] := by
  refine ⟨by decide, by decide, by decide⟩

/-- C9 (amended): sorting is byte-identity on sorted files in canonical
form that fit in one batch: if every line is the formatting of its own
parse (keys printed without leading zeros or trailing garbage), the keys
are non-decreasing, and the line count is at most the batch capacity (so
the single-run fast path runs — across several runs the uninitialised
tie-break of C1 could reorder equal keys), then the output equals the
input. -/
theorem claim9_idempotent (bs : Nat) (junk : Nat → Nat) (lines : List (List Char))
    (hlen : lines.length ≤ bs)
    (hcanon : lines
      = (lines.filterMap parseKV).map fun x => natToDec x.1 ++ ':' :: x.2)
    (hsorted : (lines.filterMap parseKV).Pairwise fun a b => a.1 ≤ b.1) :
    runSort bs junk lines = lines := by
  by_cases hnil : lines = []
  · subst hnil
    simp [runSort, runSortRecords, runsOf, makeRuns, readBatch]
  · have hread := readBatch_all bs lines 0 [] (by simpa using hlen)
    simp only [List.nil_append, Nat.zero_add] at hread
    have hkvb : ((lines.enumFrom 0).filterMap parseAt).map kv
        = lines.filterMap parseKV := filterMap_parseAt_map_kv lines 0
    have hbne : (lines.enumFrom 0).filterMap parseAt ≠ [] := by
      intro h0
      rw [h0] at hkvb
      rw [← hkvb] at hcanon
      simp at hcanon
      exact hnil hcanon
    have hmknil : ∀ f idx, makeRuns bs f [] idx = [] := by
      intro f idx
      cases f with
      | zero => rfl
      | succ f => simp [makeRuns, readBatch]
    have hruns : runsOf bs lines
        = [sortRun ((lines.enumFrom 0).filterMap parseAt)] := by
      unfold runsOf
      simp only [makeRuns, hread]
      rw [if_neg (by simpa using hbne)]
      rw [hmknil]
    have hbsorted : ((lines.enumFrom 0).filterMap parseAt).Pairwise
        fun a b => a.key ≤ b.key := by
      have hp := hsorted
      rw [← hkvb] at hp
      exact (List.pairwise_map.mp hp).imp fun h => by simpa [kv] using h
    have hrec : runSortRecords bs junk lines
        = sortRun ((lines.enumFrom 0).filterMap parseAt) := by
      unfold runSortRecords
      rw [hruns]
    unfold runSort
    rw [hrec, sortRun_of_sorted _ hbsorted]
    have hfmt : ((lines.enumFrom 0).filterMap parseAt).map formatPair
        = (((lines.enumFrom 0).filterMap parseAt).map kv).map
            fun x => natToDec x.1 ++ ':' :: x.2 := by
      rw [List.map_map]
      rfl
    rw [hfmt, hkvb, ← hcanon]

theorem claim9_idempotent_witness :
    ([strL "1:a", strL "2:b"] : List (List Char)).length ≤ BATCH_SIZE
      ∧ [strL "1:a", strL "2:b"]
          = (([strL "1:a", strL "2:b"] : List (List Char)).filterMap parseKV).map
              (fun x => natToDec x.1 ++ ':' :: x.2)
      ∧ (([strL "1:a", strL "2:b"] : List (List Char)).filterMap parseKV).Pairwise
          (fun a b => a.1 ≤ b.1)
      ∧ runSort BATCH_SIZE (fun _ => 0) [strL "1:a", strL "2:b"]
          = [strL "1:a", strL "2:b"] :=
  ⟨by decide, by decide, by decide,
    claim9_idempotent BATCH_SIZE (fun _ => 0) [strL "1:a", strL "2:b"]
      (by decide) (by decide) (by decide)⟩

/-- C10 (confirmed): a line whose key portion is entirely decimal digits but
whose value exceeds the unsigned 64-bit range is classified Malformed (the
whole line is dropped with a warning by the callers); the key is never
wrapped or truncated, because the model of `from_chars` reports
out-of-range and the source treats any error code as failure. -/
theorem claim10_overflow (l k v : List Char) (p : KeyValuePair)
    (hsplit : splitAtColon l = some (k, v))
    (hdigits : ∀ c ∈ k, c.isDigit = true)
    (hbig : U64 ≤ decVal k) :
    parseKeyValue l p = none := by
  have hld : leadDigits k = k := leadDigits_all hdigits
  have h0 : fromCharsU64 k = none :=
    (fromCharsU64_eq_none_iff k).mpr (Or.inr (by rw [hld]; omega))
  simp only [parseKeyValue, hsplit, h0]

theorem claim10_overflow_witness :
    splitAtColon (strL "99999999999999999999:x")
        = some (strL "99999999999999999999", strL "x")
      ∧ (∀ c ∈ strL "99999999999999999999", c.isDigit = true)
      ∧ U64 ≤ decVal (strL "99999999999999999999")
      ∧ parseKeyValue (strL "99999999999999999999:x")
          { key := 0, value := [], originalIndex := 0 } = none :=
  ⟨by decide, by decide, by decide,
    claim10_overflow (strL "99999999999999999999:x")
      (strL "99999999999999999999") (strL "x")
      { key := 0, value := [], originalIndex := 0 }
      (by decide) (by decide) (by decide)⟩

end BigSort
